import Mathlib

/-!
Verification of the SmartHelpCenter repository (help_center.py).

Strings are modelled as lists of characters.  Python operations used by the
source are embedded directly:
  * str.strip            -> strip (drop leading/trailing whitespace)
  * str.split(sep)       -> splitOnSep (split on every occurrence of sep)
  * a in b               -> pyContains (substring test)
  * str.lower            -> List.map Char.toLower
Fallible collaborator calls (Gemini embedder, ChromaDB store, generator) are
modelled as oracle functions returning Except values; a try/except block in
the source corresponds to a match that turns an error into the degraded
result, while a call outside any try/except propagates the error value.
-/

/-- Characters treated as whitespace by Python str.strip / str.isspace
(for the ASCII range that occurs in this repository). -/
def pyWhitespace (c : Char) : Bool :=
  c = ' ' || c = '\t' || c = '\n' || c = '\r' || c = '\x0b' || c = '\x0c'

/-- Remove leading whitespace (Python str.lstrip). -/
def lstrip (l : List Char) : List Char := l.dropWhile pyWhitespace

/-- Remove trailing whitespace (Python str.rstrip). -/
def rstrip (l : List Char) : List Char := (l.reverse.dropWhile pyWhitespace).reverse

/-- Python str.strip. -/
def strip (l : List Char) : List Char := lstrip (rstrip l)

/-- Boolean prefix test on character lists. -/
def startsWith : List Char → List Char → Bool
  | [], _ => true
  | _ :: _, [] => false
  | a :: as, b :: bs => if a = b then startsWith as bs else false

/-- Locate the first occurrence of sep in l: returns the part before the
occurrence and the part after it, or none when sep does not occur. -/
def splitFirst (sep : List Char) : List Char → Option (List Char × List Char)
  | [] => if startsWith sep [] then some ([], []) else none
  | c :: rest =>
    if startsWith sep (c :: rest) then some ([], (c :: rest).drop sep.length)
    else
      match splitFirst sep rest with
      | none => none
      | some pq => some (c :: pq.1, pq.2)

/-- Fuel-indexed worker for splitOnSep. -/
def splitFuel (sep : List Char) : Nat → List Char → List (List Char)
  | 0, l => [l]
  | f + 1, l =>
    match splitFirst sep l with
    | none => [l]
    | some pq => pq.1 :: splitFuel sep f pq.2

/-- Python str.split(sep) for a non-empty separator: split on every
occurrence; consecutive separators yield empty parts. -/
def splitOnSep (sep l : List Char) : List (List Char) :=
  splitFuel sep (l.length + 1) l

/-- Python substring test: needle in hay. -/
def pyContains (needle hay : List Char) : Bool :=
  (splitFirst needle hay).isSome

/-- Join parts with sep between consecutive parts (Python sep.join). -/
def joinSep (sep : List Char) : List (List Char) → List Char
  | [] => []
  | [x] => x
  | x :: y :: rest => x ++ sep ++ joinSep sep (y :: rest)

/-- Header marker used by smart_chunk step 1. -/
def headerSep : List Char := "\n## ".toList

/-- Blank-line paragraph boundary used by smart_chunk step 2. -/
def paraSep : List Char := "\n\n".toList

/-- Sentence terminator pattern used by smart_chunk step 3. -/
def dotSp : List Char := ". ".toList

/-- The greedy sentence-accumulation loop of smart_chunk (source lines
324-333): the running chunk current accumulates sentences while the length
test passes; otherwise the running chunk is flushed (stripped) and restarted
from the current sentence.  After the loop a non-empty running chunk is
flushed. -/
def sentLoop (max_tokens : Nat) : List (List Char) → List Char → List (List Char)
  | [], current => if current = [] then [] else [strip current]
  | s :: rest, current =>
    if current.length + s.length < max_tokens * 4 then
      sentLoop max_tokens rest (current ++ s ++ dotSp)
    else
      (if current = [] then [] else [strip current]) ++ sentLoop max_tokens rest (s ++ dotSp)

/-- smart_chunk from help_center.py (lines 300-339): split on headers, split
oversize sections on blank lines, split oversize paragraphs on sentence
boundaries with greedy accumulation, and finally drop chunks that are empty
after stripping. -/
def smart_chunk (article : List Char) (max_tokens : Nat) : List (List Char) :=
  (List.flatMap (splitOnSep headerSep article) (fun sec =>
    if sec.length > max_tokens * 4 then
      List.flatMap (splitOnSep paraSep sec) (fun para =>
        if para.length > max_tokens * 4 then
          sentLoop max_tokens (splitOnSep dotSp para) []
        else [para])
    else [sec])).filter (fun c => decide (strip c ≠ []))

/-- _calculate_confidence from help_center.py (lines 239-250); np.mean is the
arithmetic mean, modelled over the rationals. -/
def calculate_confidence (distances : List ℚ) : String :=
  if distances = [] then "none"
  else if distances.sum / (distances.length : ℚ) < 3 / 10 then "high"
  else if distances.sum / (distances.length : ℚ) < 6 / 10 then "medium"
  else "low"

/-- The apostrophe character. -/
def apos : Char := Char.ofNat 39

/-- The fixed trigger-to-synonyms mapping of _expand_query (lines 195-205),
in source (insertion) order. -/
def expansions : List (List Char × List Char) :=
  [("can".toList ++ [apos] ++ "t".toList, "cannot unable".toList),
   ("doesn".toList ++ [apos] ++ "t work".toList, "not working broken error fail".toList),
   ("payment".toList, "billing charge subscription invoice".toList),
   ("login".toList, "sign in signin authenticate".toList),
   ("password".toList, "credential passphrase pwd".toList),
   ("export".toList, "download save extract".toList),
   ("delete".toList, "remove erase clear".toList),
   ("create".toList, "make new add".toList),
   ("update".toList, "edit modify change".toList)]

/-- _expand_query from help_center.py (lines 193-212): lower-case the query,
then for each mapping entry in order append a space plus the synonyms
whenever the trigger occurs in the accumulated string. -/
def expand_query (user_query : List Char) : List Char :=
  expansions.foldl
    (fun expanded p => if pyContains p.1 expanded then expanded ++ (' ' :: p.2) else expanded)
    (user_query.map Char.toLower)

/-- Metadata stored with each indexed article (source lines 80-85). -/
structure Metadata where
  article_id : List Char
  title : List Char
  category : List Char
  char_count : Nat
deriving DecidableEq

/-- The parallel result arrays returned by collection.query for a single
query vector (the [0]-indexed rows of the chromadb response). -/
structure QueryResults where
  ids : List (List Char)
  documents : List (List Char)
  metadatas : List Metadata
  distances : List ℚ

/-- One entry of relevant_articles (source lines 174-181). -/
structure RetrievedArticle where
  title : List Char
  article_id : List Char
  category : List Char
  relevance_score : ℚ
  snippet : List Char

/-- The dict returned by answer_support_query. -/
structure SupportAnswer where
  answer : List Char
  relevant_articles : List RetrievedArticle
  confidence : String

/-- The relevant_articles list built from the store results (source lines
173-181): metadata fields, relevance 1 - distance, snippet = first 200
characters of the document plus an ellipsis. -/
def build_articles (results : QueryResults) : List RetrievedArticle :=
  (List.range results.ids.length).map (fun i =>
    { title := (results.metadatas.getD i ⟨[], [], [], 0⟩).title
      article_id := (results.metadatas.getD i ⟨[], [], [], 0⟩).article_id
      category := (results.metadatas.getD i ⟨[], [], [], 0⟩).category
      relevance_score := 1 - results.distances.getD i 0
      snippet := (results.documents.getD i []).take 200 ++ "...".toList })

/-- The generation prompt template of _generate_support_response (source
lines 216-228), with the query and context substituted. -/
def support_prompt (query context : List Char) : List Char :=
  "Based on the following help articles, provide a clear and helpful answer to the user".toList
    ++ [apos] ++ "s question.\n        \nUser Question: ".toList
    ++ query
    ++ "\n\nRelevant Help Articles:\n".toList
    ++ context
    ++ "\n\nInstructions:\n- Provide a concise, friendly response that directly addresses the user".toList
    ++ [apos] ++ "s question\n- Use information from the articles to give specific, actionable steps\n- If the articles don".toList
    ++ [apos] ++ "t contain the exact answer, suggest related information that might help\n- Keep the tone helpful and professional\n- Format the response with clear steps if applicable".toList

/-- _generate_support_response (source lines 214-237): the generate_content
call is inside try/except, so a generator error degrades to an error-string
answer. -/
def generate_support_response (gen : List Char → Except (List Char) (List Char))
    (query context : List Char) : List Char :=
  match gen (support_prompt query context) with
  | Except.ok t => t
  | Except.error e =>
    "I found relevant articles but encountered an error generating a response: ".toList ++ e

/-- answer_support_query (source lines 118-191).  The embed_content call is
inside try/except (error caught, lines 146-151); the collection.query call
(line 159) is not inside any try/except, so a store error propagates as
Except.error.  The oracle arguments model the three external collaborators. -/
def answer_support_query (embed : List Char → Except (List Char) (List ℚ))
    (store_query : List ℚ → Nat → Option (List Char) → Except (List Char) QueryResults)
    (gen : List Char → Except (List Char) (List Char))
    (user_query : List Char) (top_k : Nat) (category_filter : Option (List Char)) :
    Except (List Char) SupportAnswer :=
  let expanded_query := expand_query user_query
  match embed expanded_query with
  | Except.error e =>
    Except.ok
      { answer := "Error processing query: ".toList ++ e
        relevant_articles := []
        confidence := "error" }
  | Except.ok query_embedding =>
    match store_query query_embedding top_k category_filter with
    | Except.error e => Except.error e
    | Except.ok results =>
      if results.ids = [] then
        Except.ok
          { answer := "I couldn".toList ++ [apos] ++ "t find any relevant articles for your question.".toList
            relevant_articles := []
            confidence := "none" }
      else
        Except.ok
          { answer := generate_support_response gen user_query
              (joinSep "\n\n---\n\n".toList results.documents)
            relevant_articles := build_articles results
            confidence := calculate_confidence results.distances }

/-- An input article dict: the four keys may each be present or absent. -/
structure PyArticle where
  title : Option (List Char)
  content : Option (List Char)
  article_id : Option (List Char)
  category : Option (List Char)
deriving DecidableEq

/-- The required-field validation of _index_batch (source line 72). -/
def has_required_fields (a : PyArticle) : Bool :=
  a.title.isSome && a.content.isSome && a.article_id.isSome

/-- full_text built for a valid article (source line 77). -/
def full_text (a : PyArticle) : List Char :=
  a.title.getD [] ++ "\n\n".toList ++ a.content.getD []

/-- The metadata dict built for a valid article (source lines 80-85). -/
def article_metadata (a : PyArticle) : Metadata :=
  { article_id := a.article_id.getD []
    title := a.title.getD []
    category := a.category.getD "general".toList
    char_count := (full_text a).length }

/-- One stored row of the vector store (parallel arrays of collection.add). -/
structure StoreEntry where
  entry_id : List Char
  embedding : List ℚ
  document : List Char
  metadata : Metadata

/-- The vector store contents. -/
structure Store where
  entries : List StoreEntry

/-- Observable collaborator interactions during indexing. -/
inductive IndexEvent where
  | skipWarning (article_id : List Char)
  | embedCall (texts : List (List Char))
  | addCall (ids : List (List Char)) (embeddings : List (List ℚ))
      (documents : List (List Char)) (metadatas : List Metadata)
deriving DecidableEq

/-- collection.add zips its parallel id/embedding/document/metadata arrays
into stored rows. -/
def mk_entries : List (List Char) → List (List ℚ) → List (List Char) → List Metadata →
    List StoreEntry
  | i :: is, v :: vs, d :: ds, m :: ms => ⟨i, v, d, m⟩ :: mk_entries is vs ds ms
  | _, _, _, _ => []

/-- The documents_to_embed list accumulated by the validation loop of
_index_batch: the full texts of the articles that pass the required-field
check, in order. -/
def batch_documents (articles : List PyArticle) : List (List Char) :=
  (articles.filter has_required_fields).map full_text

/-- The metadata_list accumulated by the same loop. -/
def batch_metadatas (articles : List PyArticle) : List Metadata :=
  (articles.filter has_required_fields).map article_metadata

/-- The skip warnings printed for articles with missing required fields. -/
def batch_skip_events (articles : List PyArticle) : List IndexEvent :=
  (articles.filter (fun a => !(has_required_fields a))).map (fun a =>
    IndexEvent.skipWarning (a.article_id.getD "unknown".toList))

/-- The ids doc_(start_idx + i) generated for the embedded documents. -/
def batch_ids (articles : List PyArticle) (start_idx : Nat) : List (List Char) :=
  (List.range (batch_documents articles).length).map (fun i =>
    "doc_".toList ++ Nat.toDigits 10 (start_idx + i))

/-- _index_batch (source lines 65-116): skip articles with missing required
fields (with a warning), embed the remaining full texts in one call (inside
try/except: an embedder error abandons the batch), then commit the embedded
subset to the store with ids doc_(start_idx + i). -/
def index_batch (embed : List (List Char) → Except (List Char) (List (List ℚ)))
    (articles : List PyArticle) (start_idx : Nat) (store : Store) :
    Store × List IndexEvent :=
  if batch_documents articles = [] then (store, batch_skip_events articles)
  else
    match embed (batch_documents articles) with
    | Except.error _ =>
      (store, batch_skip_events articles ++ [IndexEvent.embedCall (batch_documents articles)])
    | Except.ok embeddings =>
      (⟨store.entries ++ mk_entries (batch_ids articles start_idx) embeddings
          (batch_documents articles) (batch_metadatas articles)⟩,
       batch_skip_events articles ++
         [IndexEvent.embedCall (batch_documents articles),
          IndexEvent.addCall (batch_ids articles start_idx) embeddings
            (batch_documents articles) (batch_metadatas articles)])

/-- The batch loop of index_help_articles (source lines 61-63): slices of
batch_size articles processed in order, each with absolute start index.
Python range with step 0 raises, so batch_size 0 is mapped to no work. -/
def index_batches (embed : List (List Char) → Except (List Char) (List (List ℚ)))
    (articles : List PyArticle) (batch_size start_idx : Nat) (store : Store) :
    Store × List IndexEvent :=
  match articles, batch_size with
  | [], _ => (store, [])
  | _ :: _, 0 => (store, [])
  | a :: rest, b + 1 =>
    let res := index_batch embed ((a :: rest).take (b + 1)) start_idx store
    let res2 := index_batches embed ((a :: rest).drop (b + 1)) (b + 1)
      (start_idx + (b + 1)) res.1
    (res2.1, res.2 ++ res2.2)
termination_by articles.length
decreasing_by simp [List.length_drop]; omega

/-- index_help_articles (source lines 48-63): empty input returns
immediately with no collaborator calls; otherwise the articles are processed
in batches. -/
def index_help_articles (embed : List (List Char) → Except (List Char) (List (List ℚ)))
    (articles : List PyArticle) (batch_size : Nat) (store : Store) :
    Store × List IndexEvent :=
  if articles = [] then (store, [])
  else index_batches embed articles batch_size 0 store

/-! ### Basic facts about strip -/

theorem lstrip_append_nonws (X : List Char) (c : Char) (hc : pyWhitespace c = false) :
    lstrip (X ++ [c]) = lstrip X ++ [c] := by
  induction X with
  | nil => simp [lstrip, List.dropWhile, hc]
  | cons a X ih =>
    by_cases ha : pyWhitespace a = true
    · simp only [lstrip, List.cons_append, List.dropWhile_cons, ha, if_true] at ih ⊢
      exact ih
    · simp [lstrip, List.dropWhile_cons, ha]

theorem lstrip_isSuffix (l : List Char) : lstrip l <:+ l :=
  List.dropWhile_suffix pyWhitespace

theorem rstrip_append_dotSp (X : List Char) : rstrip (X ++ dotSp) = X ++ ['.'] := by
  have h1 : (X ++ dotSp).reverse = ' ' :: '.' :: X.reverse := by simp [dotSp]
  have hsp : pyWhitespace ' ' = true := by decide
  have hdot : pyWhitespace '.' = false := by decide
  simp [rstrip, h1, List.dropWhile_cons, hsp, hdot]

theorem strip_append_dotSp (X : List Char) : strip (X ++ dotSp) = lstrip X ++ ['.'] := by
  rw [strip, rstrip_append_dotSp, lstrip_append_nonws X '.' (by decide)]

theorem strip_ne_nil {l : List Char} {a : Char} (ha : a ∈ l) (hw : pyWhitespace a = false) :
    strip l ≠ [] := by
  intro h
  rw [strip, lstrip] at h
  have h1 : ∀ x ∈ rstrip l, pyWhitespace x = true := List.dropWhile_eq_nil_iff.mp h
  have h2 : a ∈ rstrip l := by
    have h3 : a ∈ l.reverse := List.mem_reverse.mpr ha
    rw [← List.takeWhile_append_dropWhile pyWhitespace l.reverse] at h3
    rcases List.mem_append.mp h3 with h4 | h4
    · have := List.mem_takeWhile_imp h4
      rw [hw] at this
      cases this
    · exact List.mem_reverse.mpr h4
  rw [h1 a h2] at hw
  cases hw

/-! ### splitFirst and splitOnSep -/

theorem startsWith_iff (p l : List Char) : startsWith p l = true ↔ ∃ t, p ++ t = l := by
  induction p generalizing l with
  | nil => simp [startsWith]
  | cons a as ih =>
    cases l with
    | nil => simp [startsWith]
    | cons b bs =>
      by_cases hab : a = b
      · subst hab
        simp [startsWith, ih]
      · simp [startsWith, hab]

theorem splitFirst_append {sep : List Char} :
    ∀ {l pq}, splitFirst sep l = some pq → l = pq.1 ++ sep ++ pq.2 := by
  intro l
  induction l with
  | nil =>
    intro pq h
    simp only [splitFirst] at h
    split at h
    · rename_i hs
      have hsep : sep = [] := by
        cases sep with
        | nil => rfl
        | cons x xs => simp [startsWith] at hs
      cases h
      simp [hsep]
    · cases h
  | cons c rest ih =>
    intro pq h
    simp only [splitFirst] at h
    split at h
    · rename_i hs
      obtain ⟨t, ht⟩ := (startsWith_iff sep (c :: rest)).mp hs
      cases h
      have hdrop : (c :: rest).drop sep.length = t := by
        rw [← ht, List.drop_left]
      simp only [hdrop, List.nil_append]
      exact ht.symm
    · rename_i hs
      cases hrest : splitFirst sep rest with
      | none => rw [hrest] at h; cases h
      | some pq' =>
        rw [hrest] at h
        cases h
        have := ih hrest
        simp only [List.cons_append, List.append_assoc] at this ⊢
        rw [← this]

theorem splitFirst_isInf {sep l : List Char} {pq} (h : splitFirst sep l = some pq) :
    sep <:+: l :=
  ⟨pq.1, pq.2, (splitFirst_append h).symm⟩

theorem splitFirst_none {sep l : List Char} (h : splitFirst sep l = none) : ¬ sep <:+: l := by
  induction l with
  | nil =>
    rintro ⟨s, t, hst⟩
    have hsep : sep = [] := by
      rcases List.append_eq_nil.mp hst with ⟨h1, -⟩
      exact (List.append_eq_nil.mp h1).2
    subst hsep
    simp [splitFirst, startsWith] at h
  | cons c rest ih =>
    rintro ⟨s, t, hst⟩
    simp only [splitFirst] at h
    split at h
    · cases h
    · rename_i hs
      cases hrest : splitFirst sep rest with
      | some pq => rw [hrest] at h; cases h
      | none =>
        cases s with
        | nil =>
          simp only [List.nil_append] at hst
          exact hs ((startsWith_iff _ _).mpr ⟨t, hst⟩)
        | cons d s' =>
          have hst' : s' ++ sep ++ t = rest := by
            simp only [List.cons_append] at hst
            injection hst
          exact ih hrest ⟨s', t, hst'⟩

theorem splitFirst_eq_none {sep l : List Char} (h : ¬ sep <:+: l) : splitFirst sep l = none := by
  cases hs : splitFirst sep l with
  | none => rfl
  | some pq => exact absurd (splitFirst_isInf hs) h

theorem splitFirst_clean {sep : List Char} (hsep : sep ≠ []) :
    ∀ {l pq}, splitFirst sep l = some pq → ¬ sep <:+: pq.1 := by
  intro l
  induction l with
  | nil =>
    intro pq h
    simp only [splitFirst] at h
    split at h
    · rename_i hs
      have : sep = [] := by
        cases sep with
        | nil => rfl
        | cons x xs => simp [startsWith] at hs
      exact absurd this hsep
    · cases h
  | cons c rest ih =>
    intro pq h
    simp only [splitFirst] at h
    split at h
    · cases h
      rintro ⟨s, t, hst⟩
      have : sep = [] := by
        rcases List.append_eq_nil.mp hst with ⟨h1, -⟩
        exact (List.append_eq_nil.mp h1).2
      exact absurd this hsep
    · rename_i hs
      cases hrest : splitFirst sep rest with
      | none => rw [hrest] at h; cases h
      | some pq' =>
        rw [hrest] at h
        cases h
        rintro ⟨s, t, hst⟩
        cases s with
        | nil =>
          simp only [List.nil_append] at hst
          have h3 : c :: rest = (c :: pq'.1) ++ (sep ++ pq'.2) := by
            rw [splitFirst_append hrest]
            simp [List.append_assoc]
          have hl : c :: rest = sep ++ (t ++ (sep ++ pq'.2)) := by
            rw [h3, ← hst]
            simp [List.append_assoc]
          exact hs ((startsWith_iff _ _).mpr ⟨t ++ (sep ++ pq'.2), hl.symm⟩)
        | cons d s' =>
          have hst' : s' ++ sep ++ t = pq'.1 := by
            simp only [List.cons_append] at hst
            injection hst
          exact ih hrest ⟨s', t, hst'⟩

theorem splitFirst_shrink {sep l : List Char} {pq} (hsep : sep ≠ [])
    (h : splitFirst sep l = some pq) : pq.2.length < l.length := by
  have h1 := splitFirst_append h
  have h2 : sep.length ≠ 0 := fun hx => hsep (List.length_eq_zero.mp hx)
  rw [h1]
  simp only [List.length_append]
  omega

theorem splitFuel_ne_nil (sep : List Char) (f : Nat) (l : List Char) :
    splitFuel sep f l ≠ [] := by
  cases f with
  | zero => simp [splitFuel]
  | succ f =>
    simp only [splitFuel]
    cases h : splitFirst sep l <;> simp

theorem splitFuel_clean (sep : List Char) (hsep : sep ≠ []) :
    ∀ (f : Nat) (l : List Char), l.length < f → ∀ p ∈ splitFuel sep f l, ¬ sep <:+: p := by
  intro f
  induction f with
  | zero => intro l hl; omega
  | succ f ih =>
    intro l hl p hp
    simp only [splitFuel] at hp
    cases hs : splitFirst sep l with
    | none =>
      rw [hs] at hp
      simp at hp
      subst hp
      exact splitFirst_none hs
    | some pq =>
      rw [hs] at hp
      rcases List.mem_cons.mp hp with h1 | h1
      · subst h1
        exact splitFirst_clean hsep hs
      · refine ih pq.2 ?_ p h1
        have := splitFirst_shrink hsep hs
        omega

theorem joinSep_cons (sep a : List Char) {rest : List (List Char)} (h : rest ≠ []) :
    joinSep sep (a :: rest) = a ++ sep ++ joinSep sep rest := by
  cases rest with
  | nil => exact absurd rfl h
  | cons b bs => rfl

theorem splitFuel_joinSep (sep : List Char) (hsep : sep ≠ []) :
    ∀ (f : Nat) (l : List Char), l.length < f → joinSep sep (splitFuel sep f l) = l := by
  intro f
  induction f with
  | zero => intro l hl; omega
  | succ f ih =>
    intro l hl
    simp only [splitFuel]
    cases hs : splitFirst sep l with
    | none => rfl
    | some pq =>
      rw [joinSep_cons sep pq.1 (splitFuel_ne_nil sep f pq.2)]
      rw [ih pq.2 (by have := splitFirst_shrink hsep hs; omega)]
      exact (splitFirst_append hs).symm

theorem splitOnSep_clean {sep l : List Char} (hsep : sep ≠ []) :
    ∀ p ∈ splitOnSep sep l, ¬ sep <:+: p :=
  splitFuel_clean sep hsep _ l (Nat.lt_succ_self _)

theorem splitOnSep_joinSep (sep l : List Char) (hsep : sep ≠ []) :
    joinSep sep (splitOnSep sep l) = l :=
  splitFuel_joinSep sep hsep _ l (Nat.lt_succ_self _)

theorem splitOnSep_ne_nil (sep l : List Char) : splitOnSep sep l ≠ [] :=
  splitFuel_ne_nil sep _ l

theorem splitOnSep_single (sep l : List Char) (h : ¬ sep <:+: l) :
    splitOnSep sep l = [l] := by
  simp only [splitOnSep, splitFuel]
  rw [splitFirst_eq_none h]

theorem mem_joinSep_isInf (sep : List Char) :
    ∀ (L : List (List Char)) (p : List Char), p ∈ L → p <:+: joinSep sep L := by
  intro L
  induction L with
  | nil => intro p hp; cases hp
  | cons x rest ih =>
    intro p hp
    cases rest with
    | nil =>
      simp at hp
      subst hp
      exact ⟨[], [], by simp [joinSep]⟩
    | cons y ys =>
      rcases List.mem_cons.mp hp with h1 | h1
      · subst h1
        exact ⟨[], sep ++ joinSep sep (y :: ys), by simp [joinSep, List.append_assoc]⟩
      · exact (ih p h1).trans
          ((List.suffix_append (x ++ sep) (joinSep sep (y :: ys))).isInfix)

theorem mem_of_mem_joinSep {sep : List Char} {a : Char} :
    ∀ {L : List (List Char)}, a ∈ joinSep sep L → (∃ p ∈ L, a ∈ p) ∨ a ∈ sep := by
  intro L
  induction L with
  | nil => intro h; simp [joinSep] at h
  | cons x rest ih =>
    intro h
    cases rest with
    | nil => exact Or.inl ⟨x, by simp, h⟩
    | cons y ys =>
      simp only [joinSep] at h
      rcases List.mem_append.mp h with h1 | h1
      · rcases List.mem_append.mp h1 with h2 | h2
        · exact Or.inl ⟨x, by simp, h2⟩
        · exact Or.inr h2
      · rcases ih h1 with ⟨p, hp, hap⟩ | h2
        · exact Or.inl ⟨p, by simp [hp], hap⟩
        · exact Or.inr h2

theorem head_isPre_joinSep (sep J : List Char) (rest : List (List Char)) :
    J <+: joinSep sep (J :: rest) := by
  cases rest with
  | nil => exact ⟨[], by simp [joinSep]⟩
  | cons y ys => exact ⟨sep ++ joinSep sep (y :: ys), by simp [joinSep, List.append_assoc]⟩

theorem joinSep_glue (sep J s : List Char) (rest : List (List Char)) :
    joinSep sep ((J ++ sep ++ s) :: rest) = joinSep sep (J :: s :: rest) := by
  cases rest with
  | nil => simp [joinSep, List.append_assoc]
  | cons r rs => simp [joinSep, List.append_assoc]

theorem joinSep_tail_suffix (sep s : List Char) (rest : List (List Char)) (J : List Char) :
    joinSep sep (s :: rest) <:+ joinSep sep (J :: s :: rest) :=
  List.suffix_append (J ++ sep) (joinSep sep (s :: rest))

theorem pyContains_iff (needle hay : List Char) :
    pyContains needle hay = true ↔ needle <:+: hay := by
  constructor
  · intro h
    unfold pyContains at h
    cases hs : splitFirst needle hay with
    | none => simp [hs] at h
    | some pq => exact splitFirst_isInf hs
  · intro h
    unfold pyContains
    cases hs : splitFirst needle hay with
    | none => exact absurd h (splitFirst_none hs)
    | some pq => simp

theorem dotSp_append_dot {Y : List Char} (h : ¬ dotSp <:+: Y) :
    ¬ dotSp <:+: (Y ++ ['.']) := by
  rintro ⟨s, t, hst⟩
  rcases List.eq_nil_or_concat t with rfl | ⟨t', x, rfl⟩
  · have h1 : (s ++ ['.']) ++ [' '] = Y ++ ['.'] := by
      simpa [dotSp, List.append_assoc] using hst
    have h2 := congrArg List.reverse h1
    simp only [List.reverse_append, List.reverse_cons, List.reverse_nil, List.nil_append,
      List.cons_append, List.singleton_append] at h2
    exact absurd (List.head_eq_of_cons_eq h2) (by decide)
  · have h1 : (s ++ dotSp ++ t') ++ [x] = Y ++ ['.'] := by
      simpa [List.append_assoc] using hst
    have h2 := List.append_inj' h1 rfl
    exact h ⟨s, t', h2.1⟩

/-! ### The sentence-accumulation loop -/

theorem sentLoop_budget (mt : Nat) :
    ∀ (sents : List (List Char)) (current : List Char),
      (∀ s ∈ sents, ¬ dotSp <:+: s) →
      (current = [] ∨ (strip current).length ≤ mt * 4 ∨ ¬ dotSp <:+: strip current) →
      ∀ c ∈ sentLoop mt sents current, c.length ≤ mt * 4 ∨ ¬ dotSp <:+: c := by
  intro sents
  induction sents with
  | nil =>
    intro current _ hc c hcmem
    simp only [sentLoop] at hcmem
    split at hcmem
    · cases hcmem
    · rename_i hne
      simp at hcmem
      subst hcmem
      rcases hc with h | h | h
      · exact absurd h hne
      · exact Or.inl h
      · exact Or.inr h
  | cons s rest ih =>
    intro current hs hc c hcmem
    simp only [sentLoop] at hcmem
    split at hcmem
    · rename_i hlt
      refine ih _ (fun x hx => hs x (List.mem_cons_of_mem _ hx)) ?_ c hcmem
      right; left
      rw [strip_append_dotSp]
      have h2 : (lstrip (current ++ s)).length ≤ (current ++ s).length :=
        (lstrip_isSuffix _).length_le
      simp only [List.length_append, List.length_singleton] at h2 ⊢
      omega
    · rename_i hge
      rcases List.mem_append.mp hcmem with h1 | h1
      · split at h1
        · cases h1
        · rename_i hne
          simp at h1
          subst h1
          rcases hc with h | h | h
          · exact absurd h hne
          · exact Or.inl h
          · exact Or.inr h
      · refine ih _ (fun x hx => hs x (List.mem_cons_of_mem _ hx)) ?_ c h1
        right; right
        rw [strip_append_dotSp]
        apply dotSp_append_dot
        intro hinf
        exact hs s (List.mem_cons_self _ _) (hinf.trans (lstrip_isSuffix s).isInfix)

theorem sentLoop_pieces (mt : Nat) (article para : List Char) (hpa : para <:+: article) :
    ∀ (sents : List (List Char)) (current : List Char),
      ((current = [] ∧ joinSep dotSp sents <:+ para) ∨
        (∃ J, current = J ++ dotSp ∧ joinSep dotSp (J :: sents) <:+ para)) →
      ∀ c ∈ sentLoop mt sents current, ∃ z, c = z ++ ['.'] ∧ z <:+: article := by
  intro sents
  induction sents with
  | nil =>
    intro current hinv c hcmem
    simp only [sentLoop] at hcmem
    split at hcmem
    · cases hcmem
    · rename_i hne
      simp at hcmem
      subst hcmem
      rcases hinv with ⟨h1, -⟩ | ⟨J, hJ, hsuf⟩
      · exact absurd h1 hne
      · subst hJ
        refine ⟨lstrip J, strip_append_dotSp J, ?_⟩
        have h2 : J <:+ para := hsuf
        exact ((lstrip_isSuffix J).isInfix).trans (h2.isInfix.trans hpa)
  | cons s rest ih =>
    intro current hinv c hcmem
    simp only [sentLoop] at hcmem
    split at hcmem
    · refine ih _ ?_ c hcmem
      rcases hinv with ⟨h1, hsuf⟩ | ⟨J, hJ, hsuf⟩
      · subst h1
        exact Or.inr ⟨s, by simp, hsuf⟩
      · subst hJ
        refine Or.inr ⟨J ++ dotSp ++ s, by simp [List.append_assoc], ?_⟩
        rw [joinSep_glue]
        exact hsuf
    · rcases List.mem_append.mp hcmem with h1 | h1
      · split at h1
        · cases h1
        · rename_i hne
          simp at h1
          subst h1
          rcases hinv with ⟨h2, -⟩ | ⟨J, hJ, hsuf⟩
          · exact absurd h2 hne
          · subst hJ
            refine ⟨lstrip J, strip_append_dotSp J, ?_⟩
            have h2 : J <+: joinSep dotSp (J :: s :: rest) := head_isPre_joinSep _ _ _
            exact ((lstrip_isSuffix J).isInfix).trans
              ((h2.isInfix.trans hsuf.isInfix).trans hpa)
      · refine ih _ ?_ c h1
        refine Or.inr ⟨s, rfl, ?_⟩
        rcases hinv with ⟨-, hsuf⟩ | ⟨J, hJ, hsuf⟩
        · exact hsuf
        · exact (joinSep_tail_suffix dotSp s rest J).trans hsuf

theorem sentLoop_ne_nil (mt : Nat) :
    ∀ (sents : List (List Char)) (current : List Char), sents ≠ [] →
      sentLoop mt sents current ≠ [] := by
  intro sents
  induction sents with
  | nil => intro current h; exact absurd rfl h
  | cons s rest ih =>
    intro current _
    cases rest with
    | nil =>
      simp only [sentLoop]
      split
      · split
        · rename_i h0
          simp [dotSp] at h0
        · simp
      · intro hx
        rcases List.append_eq_nil.mp hx with ⟨-, h2⟩
        split at h2
        · rename_i h0
          simp [dotSp] at h0
        · cases h2
    | cons r rs =>
      simp only [sentLoop]
      split
      · exact ih _ (by simp)
      · intro hx
        rcases List.append_eq_nil.mp hx with ⟨-, h2⟩
        exact ih (s ++ dotSp) (by simp) h2

/-! ### Claims about the Text Chunker -/

/-- C1: For every document string and every positive token budget, each chunk
returned by smart_chunk either has length at most budget*4 characters, or
contains no ". " sentence separator at all, i.e. it is a single unsplit
sentence emitted whole by the overflow case; in particular the greedy
sentence accumulation of step 3 never emits an over-budget chunk (every
over-budget chunk is separator-free). -/
theorem smart_chunk_chunk_within_budget (article : List Char) (budget : Nat)
    (_hb : 0 < budget) :
    ∀ c ∈ smart_chunk article budget, c.length ≤ budget * 4 ∨ ¬ dotSp <:+: c := by
  intro c hc
  simp only [smart_chunk] at hc
  have hc1 := (List.mem_filter.mp hc).1
  rcases List.mem_flatMap.mp hc1 with ⟨sec, hsec, hcsec⟩
  by_cases hlen : sec.length > budget * 4
  · rw [if_pos hlen] at hcsec
    rcases List.mem_flatMap.mp hcsec with ⟨para, hpara, hcpara⟩
    by_cases hlen2 : para.length > budget * 4
    · rw [if_pos hlen2] at hcpara
      exact sentLoop_budget budget (splitOnSep dotSp para) []
        (splitOnSep_clean (by decide)) (Or.inl rfl) c hcpara
    · rw [if_neg hlen2] at hcpara
      simp at hcpara
      subst hcpara
      exact Or.inl (by omega)
  · rw [if_neg hlen] at hcsec
    simp at hcsec
    subst hcsec
    exact Or.inl (by omega)

/-- Witness for C1: budget 1 is positive and the single chunk produced for
input "hi" satisfies the bound. -/
theorem smart_chunk_chunk_within_budget_witness :
    0 < 1 ∧ (("hi".toList).length ≤ 1 * 4 ∨ ¬ dotSp <:+: "hi".toList) :=
  ⟨by decide,
    smart_chunk_chunk_within_budget "hi".toList 1 (by decide) "hi".toList (by decide)⟩

/-- C2 counterexample: the input " hi " fits any budget, yet smart_chunk
returns the untrimmed input, not the input with whitespace trimmed as the
claim states. -/
theorem smart_chunk_returns_untrimmed :
    smart_chunk " hi ".toList 2 = [" hi ".toList] ∧
      smart_chunk " hi ".toList 2 ≠ [strip " hi ".toList] :=
  ⟨by decide, by decide⟩

/-- C2 (amended): for any input that fits within budget*4 characters,
contains no header marker and has a non-whitespace character, smart_chunk
returns exactly one chunk, equal to the input text unchanged (the source
appends the section without stripping it). -/
theorem smart_chunk_short_input (article : List Char) (budget : Nat)
    (hlen : article.length ≤ budget * 4)
    (hhdr : ¬ headerSep <:+: article)
    (hnw : ∃ a ∈ article, pyWhitespace a = false) :
    smart_chunk article budget = [article] := by
  obtain ⟨a, ha, haw⟩ := hnw
  simp only [smart_chunk]
  rw [splitOnSep_single headerSep article hhdr]
  simp only [List.flatMap_cons, List.flatMap_nil, List.append_nil]
  rw [if_neg (by omega : ¬ article.length > budget * 4)]
  have hkeep : decide (strip article ≠ []) = true := decide_eq_true (strip_ne_nil ha haw)
  simp [List.filter, hkeep]

/-- Witness for C2 (amended) at input "hi" with budget 1. -/
theorem smart_chunk_short_input_witness :
    ("hi".toList.length ≤ 1 * 4 ∧ ¬ headerSep <:+: "hi".toList ∧
      (∃ a ∈ "hi".toList, pyWhitespace a = false)) ∧
    smart_chunk "hi".toList 1 = ["hi".toList] :=
  ⟨⟨by decide, by decide, by decide⟩,
    smart_chunk_short_input "hi".toList 1 (by decide) (by decide) (by decide)⟩

/-- C3 counterexample: the input " " is non-empty but smart_chunk returns no
chunks at all (the final filter drops the whitespace-only chunk). -/
theorem smart_chunk_whitespace_input_empty :
    " ".toList ≠ [] ∧ smart_chunk " ".toList 500 = [] :=
  ⟨by decide, by decide⟩

/-- C3 (amended): smart_chunk returns at least one chunk whenever some part
of the header split of the input contains a non-whitespace character; the
claim as stated fails for the non-empty one-space input, which yields no
chunks at all. -/
theorem smart_chunk_yields_chunk (article : List Char) (budget : Nat)
    (h : ∃ p ∈ splitOnSep headerSep article, ∃ a ∈ p, pyWhitespace a = false) :
    smart_chunk article budget ≠ [] := by
  obtain ⟨sec, hsec, a, ha, haw⟩ := h
  by_cases hlen : sec.length > budget * 4
  · have ha2 : a ∈ joinSep paraSep (splitOnSep paraSep sec) := by
      rw [splitOnSep_joinSep paraSep sec (by decide)]
      exact ha
    rcases mem_of_mem_joinSep ha2 with ⟨para, hpara, hapara⟩ | hbad
    · by_cases hlen2 : para.length > budget * 4
      · have hne : sentLoop budget (splitOnSep dotSp para) [] ≠ [] :=
          sentLoop_ne_nil budget _ [] (splitOnSep_ne_nil _ _)
        obtain ⟨c, hcmem⟩ := List.exists_mem_of_ne_nil _ hne
        obtain ⟨z, hz, -⟩ := sentLoop_pieces budget para para ⟨[], [], by simp⟩
          (splitOnSep dotSp para) []
          (Or.inl ⟨rfl, by
            rw [splitOnSep_joinSep dotSp para (by decide)]⟩) c hcmem
        have hmem : c ∈ smart_chunk article budget := by
          simp only [smart_chunk]
          refine List.mem_filter.mpr ⟨?_, decide_eq_true ?_⟩
          · refine List.mem_flatMap.mpr ⟨sec, hsec, ?_⟩
            rw [if_pos hlen]
            refine List.mem_flatMap.mpr ⟨para, hpara, ?_⟩
            rw [if_pos hlen2]
            exact hcmem
          · rw [hz]
            exact strip_ne_nil (a := '.') (by simp) (by decide)
        exact List.ne_nil_of_mem hmem
      · have hmem : para ∈ smart_chunk article budget := by
          simp only [smart_chunk]
          refine List.mem_filter.mpr ⟨?_, decide_eq_true (strip_ne_nil hapara haw)⟩
          refine List.mem_flatMap.mpr ⟨sec, hsec, ?_⟩
          rw [if_pos hlen]
          refine List.mem_flatMap.mpr ⟨para, hpara, ?_⟩
          rw [if_neg hlen2]
          simp
        exact List.ne_nil_of_mem hmem
    · have hnl : a = '\n' := by simpa [paraSep] using hbad
      rw [hnl] at haw
      cases haw
  · have hmem : sec ∈ smart_chunk article budget := by
      simp only [smart_chunk]
      refine List.mem_filter.mpr ⟨?_, decide_eq_true (strip_ne_nil ha haw)⟩
      refine List.mem_flatMap.mpr ⟨sec, hsec, ?_⟩
      rw [if_neg hlen]
      simp
    exact List.ne_nil_of_mem hmem

/-- Witness for C3 (amended) at input "hi". -/
theorem smart_chunk_yields_chunk_witness :
    (∃ p ∈ splitOnSep headerSep "hi".toList, ∃ a ∈ p, pyWhitespace a = false) ∧
    smart_chunk "hi".toList 1 ≠ [] :=
  ⟨by decide, smart_chunk_yields_chunk "hi".toList 1 (by decide)⟩

/-- C4 counterexample: for the document "aaaaa. bb" with budget 1 the chunk
"bb." is returned although it is not a substring of the document (the
sentence splitter re-appends the ". " terminator at the end of the last
sentence). -/
theorem smart_chunk_chunk_not_substring :
    "bb.".toList ∈ smart_chunk "aaaaa. bb".toList 1 ∧
      ¬ "bb.".toList <:+: "aaaaa. bb".toList :=
  ⟨by decide, by decide⟩

/-- C4 (amended): every chunk returned by smart_chunk is either a contiguous
substring of the input document, or is a chunk ending in a period whose body
(the chunk without its final period) is a contiguous substring of the input:
the only deviation is the single trailing period re-appended by the sentence
splitting step. -/
theorem smart_chunk_chunk_near_substring (article : List Char) (budget : Nat) :
    ∀ c ∈ smart_chunk article budget,
      c <:+: article ∨ ∃ z, c = z ++ ['.'] ∧ z <:+: article := by
  intro c hc
  simp only [smart_chunk] at hc
  have hc1 := (List.mem_filter.mp hc).1
  rcases List.mem_flatMap.mp hc1 with ⟨sec, hsec, hcsec⟩
  have hsecinf : sec <:+: article := by
    have := mem_joinSep_isInf headerSep _ sec hsec
    rwa [splitOnSep_joinSep headerSep article (by decide)] at this
  by_cases hlen : sec.length > budget * 4
  · rw [if_pos hlen] at hcsec
    rcases List.mem_flatMap.mp hcsec with ⟨para, hpara, hcpara⟩
    have hparainf : para <:+: article := by
      have := mem_joinSep_isInf paraSep _ para hpara
      rw [splitOnSep_joinSep paraSep sec (by decide)] at this
      exact this.trans hsecinf
    by_cases hlen2 : para.length > budget * 4
    · rw [if_pos hlen2] at hcpara
      exact Or.inr (sentLoop_pieces budget article para hparainf
        (splitOnSep dotSp para) []
        (Or.inl ⟨rfl, by rw [splitOnSep_joinSep dotSp para (by decide)]⟩) c hcpara)
    · rw [if_neg hlen2] at hcpara
      simp at hcpara
      subst hcpara
      exact Or.inl hparainf
  · rw [if_neg hlen] at hcsec
    simp at hcsec
    subst hcsec
    exact Or.inl hsecinf

/-! ### Claims about the Confidence Estimator -/

/-- C5: for every non-empty distance list, _calculate_confidence returns
"high" iff the arithmetic mean is below 0.3, "medium" iff the mean lies in
[0.3, 0.6), and "low" iff the mean is at least 0.6; the empty list yields
"none"; and the four example inputs of the spec map to the stated labels. -/
theorem calculate_confidence_spec (d : List ℚ) (h : d ≠ []) :
    (calculate_confidence d = "high" ↔ d.sum / (d.length : ℚ) < 3 / 10) ∧
    (calculate_confidence d = "medium" ↔
      3 / 10 ≤ d.sum / (d.length : ℚ) ∧ d.sum / (d.length : ℚ) < 6 / 10) ∧
    (calculate_confidence d = "low" ↔ 6 / 10 ≤ d.sum / (d.length : ℚ)) ∧
    calculate_confidence [] = "none" ∧
    calculate_confidence [1/10, 2/10] = "high" ∧
    calculate_confidence [4/10, 5/10] = "medium" ∧
    calculate_confidence [7/10, 9/10] = "low" := by
  refine ⟨?_, ?_, ?_, by rw [calculate_confidence, if_pos rfl],
    by rw [calculate_confidence, if_neg (by simp), if_pos (by norm_num)],
    by rw [calculate_confidence, if_neg (by simp), if_neg (by norm_num), if_pos (by norm_num)],
    by rw [calculate_confidence, if_neg (by simp), if_neg (by norm_num), if_neg (by norm_num)]⟩
  · rw [calculate_confidence, if_neg h]
    by_cases h1 : d.sum / (d.length : ℚ) < 3 / 10
    · rw [if_pos h1]
      exact iff_of_true rfl h1
    · rw [if_neg h1]
      constructor
      · intro hx
        by_cases h2 : d.sum / (d.length : ℚ) < 6 / 10
        · rw [if_pos h2] at hx
          exact absurd hx (by decide)
        · rw [if_neg h2] at hx
          exact absurd hx (by decide)
      · intro hx
        exact absurd hx h1
  · rw [calculate_confidence, if_neg h]
    by_cases h1 : d.sum / (d.length : ℚ) < 3 / 10
    · rw [if_pos h1]
      constructor
      · intro hx
        exact absurd hx (by decide)
      · rintro ⟨h2, -⟩
        exact absurd h1 (not_lt.mpr h2)
    · rw [if_neg h1]
      by_cases h2 : d.sum / (d.length : ℚ) < 6 / 10
      · rw [if_pos h2]
        exact iff_of_true rfl ⟨le_of_not_lt h1, h2⟩
      · rw [if_neg h2]
        constructor
        · intro hx
          exact absurd hx (by decide)
        · rintro ⟨-, h3⟩
          exact absurd h3 h2
  · rw [calculate_confidence, if_neg h]
    by_cases h1 : d.sum / (d.length : ℚ) < 3 / 10
    · rw [if_pos h1]
      constructor
      · intro hx
        exact absurd hx (by decide)
      · intro h2
        exact absurd h1 (not_lt.mpr (le_trans (by norm_num) h2))
    · rw [if_neg h1]
      by_cases h2 : d.sum / (d.length : ℚ) < 6 / 10
      · rw [if_pos h2]
        constructor
        · intro hx
          exact absurd hx (by decide)
        · intro h3
          exact absurd h2 (not_lt.mpr h3)
      · rw [if_neg h2]
        exact iff_of_true rfl (le_of_not_lt h2)

/-- Witness for C5 at the non-empty list [0.1, 0.2]. -/
theorem calculate_confidence_spec_witness :
    ([(1:ℚ)/10, 2/10] ≠ []) ∧ calculate_confidence [(1:ℚ)/10, 2/10] = "high" :=
  ⟨by simp, (calculate_confidence_spec [(1:ℚ)/10, 2/10] (by simp)).2.2.2.2.1⟩

/-! ### Claims about the Query Expander -/

theorem expand_query_extends (L : List (List Char × List Char)) :
    ∀ acc : List Char,
      ∃ t, L.foldl (fun expanded p =>
        if pyContains p.1 expanded then expanded ++ (' ' :: p.2) else expanded) acc
          = acc ++ t := by
  induction L with
  | nil => intro acc; exact ⟨[], by simp⟩
  | cons p L ih =>
    intro acc
    simp only [List.foldl_cons]
    by_cases hp : pyContains p.1 acc = true
    · rw [if_pos hp]
      obtain ⟨t, ht⟩ := ih (acc ++ (' ' :: p.2))
      exact ⟨' ' :: p.2 ++ t, by rw [ht, List.append_assoc]⟩
    · rw [if_neg hp]
      exact ih acc

/-- The spec example query "I can't login". -/
def cant_login_query : List Char := "I can".toList ++ [apos] ++ "t login".toList

/-- C6: _expand_query starts from the lower-cased query and only ever appends
expansion text to it (so the output is the lower-cased query followed by the
accumulated expansions, appended in mapping-iteration order), and for the
input "I can't login" the output contains both "cannot unable" and
"sign in signin authenticate". -/
theorem expand_query_spec :
    (∀ q : List Char, ∃ t, expand_query q = q.map Char.toLower ++ t) ∧
    "cannot unable".toList <:+: expand_query cant_login_query ∧
    "sign in signin authenticate".toList <:+: expand_query cant_login_query := by
  refine ⟨fun q => expand_query_extends expansions (q.map Char.toLower), ?_, ?_⟩
  · exact (pyContains_iff _ _).mp (by decide)
  · exact (pyContains_iff _ _).mp (by decide)

/-! ### Claims about the orchestrators -/

/-- C7 counterexample: with a failing vector store (healthy embedder and
generator), answer_support_query evaluates to an error value — the store
error propagates out of the public operation, contradicting the claim that
every collaborator error is caught. -/
theorem answer_query_store_error_propagates :
    answer_support_query (fun _ => Except.ok [(1:ℚ)])
        (fun _ _ _ => Except.error "store failure".toList)
        (fun _ => Except.ok "generated".toList)
        "q".toList 3 none
      = Except.error "store failure".toList := rfl

/-- C7 (amended): errors from the Embedder and the Generator are caught and
degrade the result (an error-string answer in answer_support_query, an
abandoned batch with unchanged store in _index_batch), but an error raised
by the VectorStore query call is not caught and propagates out of
answer_support_query. -/
theorem collaborator_error_policy (v : List ℚ) (results : QueryResults)
    (e user_query : List Char) (top_k : Nat) (category_filter : Option (List Char))
    (store_query : List ℚ → Nat → Option (List Char) → Except (List Char) QueryResults)
    (gen : List Char → Except (List Char) (List Char))
    (hids : results.ids ≠ []) :
    (answer_support_query (fun _ => Except.error e) store_query gen user_query top_k
        category_filter
      = Except.ok
          { answer := "Error processing query: ".toList ++ e
            relevant_articles := []
            confidence := "error" }) ∧
    (answer_support_query (fun _ => Except.ok v) (fun _ _ _ => Except.ok results)
        (fun _ => Except.error e) user_query top_k category_filter
      = Except.ok
          { answer :=
              "I found relevant articles but encountered an error generating a response: ".toList
                ++ e
            relevant_articles := build_articles results
            confidence := calculate_confidence results.distances }) ∧
    (answer_support_query (fun _ => Except.ok v) (fun _ _ _ => Except.error e) gen
        user_query top_k category_filter
      = Except.error e) ∧
    (∀ (articles : List PyArticle) (start_idx : Nat) (store : Store),
      (index_batch (fun _ => Except.error e) articles start_idx store).1 = store) := by
  refine ⟨rfl, ?_, rfl, ?_⟩
  · simp only [answer_support_query]
    rw [if_neg hids]
    rfl
  · intro articles start_idx store
    simp only [index_batch]
    split
    · rfl
    · rfl

/-- A concrete store-result fixture with one retrieved article. -/
def results_fixture : QueryResults :=
  { ids := ["doc_0".toList]
    documents := ["Reset your password on the login page.".toList]
    metadatas := [⟨"pwd-001".toList, "How to Reset Your Password".toList, "account".toList, 38⟩]
    distances := [1/2] }

/-- Witness for C7 (amended): the fixture satisfies the non-empty-results
hypothesis, and the store-error conjunct holds at concrete collaborators. -/
theorem collaborator_error_policy_witness :
    results_fixture.ids ≠ [] ∧
    answer_support_query (fun _ => Except.ok [(1:ℚ)])
        (fun _ _ _ => Except.error "down".toList)
        (fun _ => Except.ok "text".toList) "q".toList 3 none
      = Except.error "down".toList :=
  ⟨by simp [results_fixture],
    (collaborator_error_policy [(1:ℚ)] results_fixture "down".toList "q".toList 3 none
      (fun _ _ _ => Except.error "down".toList) (fun _ => Except.ok "text".toList)
      (by simp [results_fixture])).2.2.1⟩

/-- C8: index_help_articles with an empty article list performs no Embedder
or VectorStore calls (the event trace is empty) and leaves the store's
contents, hence its count, unchanged. -/
theorem index_empty_noop
    (embed : List (List Char) → Except (List Char) (List (List ℚ)))
    (batch_size : Nat) (store : Store) :
    index_help_articles embed [] batch_size store = (store, []) := by
  simp [index_help_articles]

/-- C10: when the query-embedding call fails, answer_support_query returns a
(non-propagating) result whose confidence field is the string "error" — a
fifth value outside the documented label set — together with an empty
relevant_articles list. -/
theorem answer_query_embed_error_confidence (e user_query : List Char) (top_k : Nat)
    (category_filter : Option (List Char))
    (store_query : List ℚ → Nat → Option (List Char) → Except (List Char) QueryResults)
    (gen : List Char → Except (List Char) (List Char)) :
    answer_support_query (fun _ => Except.error e) store_query gen user_query top_k
        category_filter
      = Except.ok
          { answer := "Error processing query: ".toList ++ e
            relevant_articles := []
            confidence := "error" } ∧
    "error" ∉ (["high", "medium", "low", "none"] : List String) :=
  ⟨rfl, by decide⟩

theorem mk_entries_documents :
    ∀ (ids : List (List Char)) (vecs : List (List ℚ)) (docs : List (List Char))
      (metas : List Metadata),
      ids.length = docs.length → vecs.length = docs.length → metas.length = docs.length →
      (mk_entries ids vecs docs metas).map StoreEntry.document = docs := by
  intro ids vecs docs
  induction docs generalizing ids vecs with
  | nil =>
    intro metas h1 h2 h3
    cases ids <;> cases vecs <;> cases metas <;> rfl
  | cons d ds ih =>
    intro metas h1 h2 h3
    cases ids with
    | nil => simp at h1
    | cons i is =>
      cases vecs with
      | nil => simp at h2
      | cons v vs =>
        cases metas with
        | nil => simp at h3
        | cons m ms =>
          simp only [mk_entries, List.map_cons]
          rw [ih is vs ms (by simpa using h1) (by simpa using h2) (by simpa using h3)]

theorem mem_batch_skip_events {articles : List PyArticle} {a : PyArticle}
    (ha : a ∈ articles) (hbad : has_required_fields a = false) :
    IndexEvent.skipWarning (a.article_id.getD "unknown".toList)
      ∈ batch_skip_events articles :=
  List.mem_map_of_mem _ (List.mem_filter.mpr ⟨ha, by simp [hbad]⟩)

/-- C9: during _index_batch, every article missing a required field produces
a skip warning while the remaining well-formed articles are still embedded
and committed: after a successful embed call the store gains exactly the
full texts of the valid subset (in order), even when some articles of the
batch were skipped, and the embed call covers exactly that subset. -/
theorem index_batch_commits
    (embed : List (List Char) → Except (List Char) (List (List ℚ)))
    (articles : List PyArticle) (start_idx : Nat) (store : Store)
    (vecs : List (List ℚ))
    (hembed : embed (batch_documents articles) = Except.ok vecs)
    (hlen : vecs.length = (batch_documents articles).length) :
    ((index_batch embed articles start_idx store).1.entries.map StoreEntry.document
      = store.entries.map StoreEntry.document ++ batch_documents articles) ∧
    (∀ a ∈ articles, has_required_fields a = false →
      IndexEvent.skipWarning (a.article_id.getD "unknown".toList)
        ∈ (index_batch embed articles start_idx store).2) ∧
    (batch_documents articles ≠ [] →
      IndexEvent.embedCall (batch_documents articles)
        ∈ (index_batch embed articles start_idx store).2) := by
  by_cases hd : batch_documents articles = []
  · refine ⟨?_, ?_, fun hvalid => absurd hd hvalid⟩
    · simp only [index_batch, if_pos hd]
      rw [hd]
      simp
    · intro a ha hbad
      simp only [index_batch, if_pos hd]
      exact mem_batch_skip_events ha hbad
  · have h1 : (batch_ids articles start_idx).length = (batch_documents articles).length := by
      simp [batch_ids]
    have h2 : (batch_metadatas articles).length = (batch_documents articles).length := by
      simp [batch_metadatas, batch_documents]
    refine ⟨?_, ?_, ?_⟩
    · simp only [index_batch, if_neg hd, hembed]
      simp only [List.map_append]
      rw [mk_entries_documents _ _ _ _ h1 hlen h2]
    · intro a ha hbad
      simp only [index_batch, if_neg hd, hembed]
      exact List.mem_append_left _ (mem_batch_skip_events ha hbad)
    · intro _
      simp only [index_batch, if_neg hd, hembed]
      exact List.mem_append_right _ (by simp)

/-- A well-formed article fixture. -/
def article_ok : PyArticle :=
  { title := some "How to Reset Your Password".toList
    content := some "Use the reset link.".toList
    article_id := some "pwd-001".toList
    category := some "account".toList }

/-- An article fixture missing the required title field. -/
def article_missing_title : PyArticle :=
  { title := none
    content := some "Orphan content.".toList
    article_id := some "bad-001".toList
    category := none }

/-- An embedder fixture returning one vector per input text. -/
def embed_fixture : List (List Char) → Except (List Char) (List (List ℚ)) :=
  fun texts => Except.ok (texts.map (fun _ => [(1:ℚ)]))

/-- Witness for C9: a batch with one valid and one malformed article; the
valid article is committed and the malformed one is skipped with a warning. -/
theorem index_batch_commits_witness :
    (embed_fixture (batch_documents [article_ok, article_missing_title])
        = Except.ok ((batch_documents [article_ok, article_missing_title]).map
            (fun _ => [(1:ℚ)])) ∧
      (((batch_documents [article_ok, article_missing_title]).map
            (fun _ => [(1:ℚ)])).length
        = (batch_documents [article_ok, article_missing_title]).length)) ∧
    ((index_batch embed_fixture [article_ok, article_missing_title] 0 ⟨[]⟩).1.entries.map
        StoreEntry.document
      = (⟨[]⟩ : Store).entries.map StoreEntry.document
          ++ batch_documents [article_ok, article_missing_title]) ∧
    IndexEvent.skipWarning "bad-001".toList
      ∈ (index_batch embed_fixture [article_ok, article_missing_title] 0 ⟨[]⟩).2 := by
  have h := index_batch_commits embed_fixture [article_ok, article_missing_title] 0 ⟨[]⟩
    ((batch_documents [article_ok, article_missing_title]).map (fun _ => [(1:ℚ)]))
    rfl (by simp)
  refine ⟨⟨rfl, by simp⟩, h.1, ?_⟩
  have h2 := h.2.1 article_missing_title (by simp) rfl
  simpa [article_missing_title] using h2

/-- Witness for C4 (amended): the chunk "bb." produced for "aaaaa. bb" with
budget 1 satisfies the near-substring disjunction. -/
theorem smart_chunk_chunk_near_substring_witness :
    "bb.".toList ∈ smart_chunk "aaaaa. bb".toList 1 ∧
    ("bb.".toList <:+: "aaaaa. bb".toList ∨
      ∃ z, "bb.".toList = z ++ ['.'] ∧ z <:+: "aaaaa. bb".toList) :=
  ⟨by decide,
    smart_chunk_chunk_near_substring "aaaaa. bb".toList 1 "bb.".toList (by decide)⟩
